import Mathlib

/-
  Verification of the sloppy-compressor LZ77 core (src/src/lz77/):
  shallow embedding of compress.rs, serialisation.rs and
  window_byte_container.rs, followed by theorems checking the
  specification's claims against that embedding.

  Conventions:
  * `u8` / `u16` / `usize` values are modelled as `Nat`; wherever the Rust
    code can panic (out-of-bounds slice, failed `unwrap`, arithmetic
    underflow) the embedded function returns `none`.
  * Bit streams (`BitVec<Msb0, u8>` / `BitSlice<Msb0, u8>`) are `List Bool`,
    most significant bit of each byte first.
-/

set_option maxHeartbeats 1000000

/-- Rust subslice `l[a..b]`: drop `a` elements, keep `b - a`. -/
def listSlice {α : Type} (l : List α) (a b : Nat) : List α := (l.drop a).take (b - a)

/-- MSB-first numeric value of a bit slice, as computed by `slice_to_byte`
and `slice_to_offset` (reverse-iterate, or-ing `1 << i`). -/
def bitsToNat (bs : List Bool) : Nat :=
  bs.foldl (fun a b => 2 * a + (if b then 1 else 0)) 0

/-- The `w` low bits of `n`, MSB first: the `Msb0` view `x[BITS - w ..]` of an
integer as taken by the serialiser. -/
def natBits (w n : Nat) : List Bool := (List.range w).map (fun j => n.testBit (w - 1 - j))

/-- The 8 bits of a byte, MSB first (`BitSlice::<Msb0, u8>::from_element`). -/
def byteBits (b : Nat) : List Bool := natBits 8 b

/-- Bit view of a byte vector (`file_bytes.view_bits::<Msb0>()`). -/
def bytesToBits (bytes : List Nat) : List Bool := bytes.flatMap byteBits

/-- Packing a finished `BitVec<Msb0, u8>` into its backing `Vec<u8>`; a final
partial byte is padded on the right with zero bits (in the pipeline the
length is always a multiple of 8). -/
def bitsToBytes : List Bool → List Nat
  | [] => []
  | b0 :: b1 :: b2 :: b3 :: b4 :: b5 :: b6 :: b7 :: rest =>
      bitsToNat [b0, b1, b2, b3, b4, b5, b6, b7] :: bitsToBytes rest
  | bs => [bitsToNat (bs ++ List.replicate (8 - bs.length) false)]

/-! ## Data model: nodes (src/src/lz77/nodes.rs) -/

/-- `NodeType` from nodes.rs. -/
inductive NodeType : Type
  | byteLiteral (lit : Nat)
  | reference (offset length : Nat)
  | endOfStream
deriving DecidableEq, Repr

/-! ## Window containers (src/src/lz77/window_byte_container.rs) -/

/-- `ByteWindow`: a moving window over an immutable byte slice. -/
structure ByteWindow : Type where
  bytes : List Nat
  maxWindowSize : Nat
  currentIndex : Nat
deriving DecidableEq, Repr

/-- The `{evicted, admitted, window}` result of an advance. -/
structure ByteWindowAdvance : Type where
  evicted : List Nat
  admitted : List Nat
  window : List Nat
deriving DecidableEq, Repr

/-- `ByteWindow::advance_to_pointer`.  Nat subtraction models
`usize::saturating_sub` exactly; `none` models the panics of the three raw
slice expressions when their ranges are invalid or run past the end. -/
def ByteWindow.advanceToPointer (w : ByteWindow) (pointer : Nat) :
    Option (ByteWindowAdvance × ByteWindow) :=
  let newStartIndex := pointer - w.maxWindowSize
  let oldStartIndex := w.currentIndex - w.maxWindowSize
  let endIndex := min w.bytes.length pointer
  if w.currentIndex < w.bytes.length ∧ endIndex < w.currentIndex then
    none
  else if oldStartIndex < newStartIndex ∧ oldStartIndex < w.bytes.length ∧
      w.bytes.length < newStartIndex then
    none
  else
    some
      ({ evicted :=
          if oldStartIndex < newStartIndex ∧ oldStartIndex < w.bytes.length then
            listSlice w.bytes oldStartIndex newStartIndex
          else [],
         admitted :=
          if w.currentIndex < w.bytes.length then
            listSlice w.bytes w.currentIndex endIndex
          else [],
         window :=
          if newStartIndex < endIndex then
            listSlice w.bytes newStartIndex endIndex
          else [] },
       { w with currentIndex := pointer })

/-- `ByteBuffer::push_all`: FIFO-evicting append with capacity `limit`.
`none` models the `drain` panic when the number of elements to drop exceeds
the current length. -/
def ByteBuffer.pushAll (vec : List Nat) (elements : List Nat) (limit : Nat) :
    Option (List Nat) :=
  if vec.length + elements.length > limit then
    let countToDrop := vec.length + elements.length - limit
    if countToDrop ≤ vec.length then some (vec.drop countToDrop ++ elements)
    else none
  else some (vec ++ elements)

/-! ## Tokenizer (src/src/lz77/compress.rs) -/

def SEARCH_WINDOW_SIZE : Nat := 2047
def PREFIX_WINDOW_SIZE : Nat := 2048

/-- `find_length_of_series_match`: length of the longest common prefix. -/
def find_length_of_series_match : List Nat → List Nat → Nat
  | l :: ls, r :: rs => if l = r then find_length_of_series_match ls rs + 1 else 0
  | _, _ => 0

/-- One index test of the reverse scan in `calculate_reference_node`:
state is the current `(offset, length)` pair. -/
def calcStep (c : Nat) (search pfx : List Nat) (i : Nat) (st : Nat × Nat) :
    Nat × Nat :=
  if search.getD i 0 = c then
    let seriesMatch := find_length_of_series_match (search.drop (i + 1)) pfx
    if st.2 < seriesMatch then (search.length - i, seriesMatch + 1) else st
  else st

/-- The reverse scan of `calculate_reference_node`, from index `i` down to 0. -/
def calcScan (c : Nat) (search pfx : List Nat) : Nat → Nat × Nat → Nat × Nat
  | 0, st => calcStep c search pfx 0 st
  | i + 1, st => calcScan c search pfx i (calcStep c search pfx (i + 1) st)

/-- `calculate_reference_node`.  The outer `Option` models panics: `none` is
a failed `u16::try_from(..).unwrap()` (unreachable in practice, since both
values are bounded by the search slice length).  The inner `Option` is the
`Option<NodeType>` the Rust function returns, `some none` being its
`Option::None` (no usable match). -/
def calculate_reference_node (c : Nat) (search pfx : List Nat) :
    Option (Option NodeType) :=
  let st :=
    if search.length > 0 then calcScan c search pfx (search.length - 1) (0, 0)
    else (0, 0)
  if st.2 = 0 then some none
  else if 65535 < st.1 ∨ 65535 < st.2 then none
  else some (some (NodeType.reference st.1 st.2))

/-- Loop body of `build_lz77_node_list`; `fuel` bounds the iteration count
(each iteration advances the byte pointer by at least one, so
`bytes.length + 1` is always enough).  `none` models the out-of-bounds index
panic `to_compress[byte_ptr]` (reachable only on empty input) and the
`panic!` on a non-reference result of `calculate_reference_node`. -/
def buildLoop (bytes : List Nat) :
    Nat → ByteWindow → ByteWindow → Nat → List NodeType → Option (List NodeType)
  | 0, _, _, _, _ => none
  | fuel + 1, searchWindow, prefixWindow, bytePtr, acc =>
    if bytePtr < bytes.length then
      let c := bytes.getD bytePtr 0
      match searchWindow.advanceToPointer bytePtr with
      | none => none
      | some (searchAdv, searchWindow') =>
        match prefixWindow.advanceToPointer (bytePtr + PREFIX_WINDOW_SIZE + 1) with
        | none => none
        | some (prefixAdv, prefixWindow') =>
          match calculate_reference_node c searchAdv.window prefixAdv.window with
          | none => none
          | some (some (NodeType.reference offset length)) =>
            let acc' := NodeType.reference offset length :: acc
            let bytePtr' := bytePtr + length
            if bytePtr' > bytes.length - 1 then some acc'.reverse
            else buildLoop bytes fuel searchWindow' prefixWindow' bytePtr' acc'
          | some (some _) => none
          | some none =>
            let acc' := NodeType.byteLiteral c :: acc
            if bytePtr + 1 > bytes.length - 1 then some acc'.reverse
            else buildLoop bytes fuel searchWindow' prefixWindow' (bytePtr + 1) acc'
    else none

/-- `build_lz77_node_list`, collecting the callback's nodes in order. -/
def build_lz77_node_list (toCompress : List Nat) : Option (List NodeType) :=
  buildLoop toCompress (toCompress.length + 1)
    (ByteWindow.mk toCompress SEARCH_WINDOW_SIZE 0)
    (ByteWindow.mk toCompress PREFIX_WINDOW_SIZE 0)
    0 []

/-- One step of `decompress_nodes`: history buffer and bytes written so far.
`none` models the usize-underflow / slice-range panics of the buffer copy and
the `drain` panic inside `push_all`. -/
def decompLoop : List NodeType → List Nat → List Nat → Option (List Nat)
  | [], _, out => some out
  | node :: nodes, searchBuffer, out =>
    match node with
    | NodeType.byteLiteral lit =>
      match ByteBuffer.pushAll searchBuffer [lit] SEARCH_WINDOW_SIZE with
      | none => none
      | some searchBuffer' => decompLoop nodes searchBuffer' (out ++ [lit])
    | NodeType.reference offset length =>
      if offset ≤ searchBuffer.length then
        let searchStartIndex := searchBuffer.length - offset
        if searchStartIndex + length ≤ searchBuffer.length then
          let b := listSlice searchBuffer searchStartIndex (searchStartIndex + length)
          match ByteBuffer.pushAll searchBuffer b SEARCH_WINDOW_SIZE with
          | none => none
          | some searchBuffer' => decompLoop nodes searchBuffer' (out ++ b)
        else none
      else none
    | NodeType.endOfStream =>
      match ByteBuffer.pushAll searchBuffer [] SEARCH_WINDOW_SIZE with
      | none => none
      | some searchBuffer' => decompLoop nodes searchBuffer' out

/-- `decompress_nodes`, with the written byte stream as the result. -/
def decompress_nodes (nodes : List NodeType) : Option (List Nat) :=
  decompLoop nodes [] []

/-! ## Bit codec (src/src/lz77/serialisation.rs) -/

/-- `serialise_length`.  `none` models the explicit `panic!` for length 1 and
the `u16` underflow `0 * 15 - 7` that the catch-all arm hits for length 0;
for `length ≥ 8` the catch-all arm is exact (`u16` arithmetic cannot
overflow for any length representable by the callers). -/
def serialise_length (length : Nat) : Option (List Bool) :=
  match length with
  | 0 => none
  | 1 => none
  | 2 => some [false, false]
  | 3 => some [false, true]
  | 4 => some [true, false]
  | 5 => some [true, true, false, false]
  | 6 => some [true, true, false, true]
  | 7 => some [true, true, true, false]
  | _ =>
    let paddingOneBlocks := (length + 7) / 15
    let adjusted := length - (paddingOneBlocks * 15 - 7)
    if 255 < adjusted then none
    else some ((List.replicate paddingOneBlocks [true, true, true, true]).flatten ++
      natBits 4 adjusted)

/-- The bits appended for one node by the loop of `serailise_nodes`. -/
def encodeNode : NodeType → Option (List Bool)
  | NodeType.byteLiteral lit => some (false :: byteBits lit)
  | NodeType.reference offset length =>
    (serialise_length length).map (fun lengthEncoded =>
      if offset < 128 then true :: true :: natBits 7 offset ++ lengthEncoded
      else true :: false :: natBits 11 offset ++ lengthEncoded)
  | NodeType.endOfStream => some []

/-- `serailise_nodes` (sic): concatenation of the per-node encodings. -/
def serailise_nodes : List NodeType → Option (List Bool)
  | [] => some []
  | node :: nodes =>
    (encodeNode node).bind (fun e => (serailise_nodes nodes).map (fun rest => e ++ rest))

/-- The 9-bit end-of-stream marker `1 1 0 0 0 0 0 0 0`. -/
def endOfStreamMarker : List Bool :=
  [true, true, false, false, false, false, false, false, false]

/-- `append_end_marker`: append the marker, then pad with `0` bits to a
whole byte. -/
def append_end_marker (encoding : List Bool) : List Bool :=
  let withMarker := encoding ++ endOfStreamMarker
  let trailingBits := withMarker.length % 8
  if trailingBits > 0 then withMarker ++ List.replicate (8 - trailingBits) false
  else withMarker

/-- The `1111`-block counting loop of `deserialise_length`, entered knowing
the first 4 bits are `1111`; the slice is consumed 4 bits at a time so the
head is always bits `[4k..]` of the original slice.  `none` models the slice
panic when fewer than 4 bits remain, the usize underflow `0 * 15 - 7`
(unreachable from `deserialise_length`), and the two `u16::try_from` unwraps. -/
def blockLoop : List Bool → Nat → Option (Nat × Nat)
  | b0 :: b1 :: b2 :: b3 :: rest, fourBitBlockCount =>
    if b0 = true ∧ b1 = true ∧ b2 = true ∧ b3 = true then
      blockLoop rest (fourBitBlockCount + 1)
    else
      if fourBitBlockCount = 0 then none
      else
        let trailingBitValue := bitsToNat [b0, b1, b2, b3]
        let length := fourBitBlockCount * 15 - 7 + trailingBitValue
        if 65535 < length then none
        else if 65535 < fourBitBlockCount * 4 + 4 then none
        else some (length, fourBitBlockCount * 4 + 4)
  | _, _ => none

/-- `deserialise_length`: returns `(length, bits consumed)`.  `none` models
the panics of `slice[0..2]` / `slice[0..4]` on too-short slices and the
panics inside the block loop. -/
def deserialise_length (slice : List Bool) : Option (Nat × Nat) :=
  match slice with
  | b0 :: b1 :: rest =>
    if ¬(b0 = true ∧ b1 = true) then
      if b0 = false ∧ b1 = false then some (2, 2)
      else if b0 = false ∧ b1 = true then some (3, 2)
      else some (4, 2)
    else
      match rest with
      | b2 :: b3 :: _ =>
        if ¬(b2 = true ∧ b3 = true) then
          if b2 = false ∧ b3 = false then some (5, 4)
          else if b2 = false ∧ b3 = true then some (6, 4)
          else some (7, 4)
        else blockLoop slice 0
      | _ => none
  | _ => none

/-- One token-decoding step of the `deserialise_nodes` loop: the tag bit,
then either an 8-bit literal or flag + offset + length.  Returns the node and
the remaining bits; `none` models the bit-slice panics on exhausted input. -/
def decodeToken : List Bool → Option (NodeType × List Bool)
  | [] => none
  | false :: rest =>
      if 8 ≤ rest.length then
        some (NodeType.byteLiteral (bitsToNat (rest.take 8)), rest.drop 8)
      else none
  | [true] => none
  | true :: true :: rest2 =>
      if 7 ≤ rest2.length then
        (deserialise_length (rest2.drop 7)).map (fun lengthBitsRead =>
          (NodeType.reference (bitsToNat (rest2.take 7)) lengthBitsRead.1,
            (rest2.drop 7).drop lengthBitsRead.2))
      else none
  | true :: false :: rest2 =>
      if 11 ≤ rest2.length then
        (deserialise_length (rest2.drop 11)).map (fun lengthBitsRead =>
          (NodeType.reference (bitsToNat (rest2.take 11)) lengthBitsRead.1,
            (rest2.drop 11).drop lengthBitsRead.2))
      else none

/-- The `while` loop of `deserialise_nodes`.  After every decoded token the
next 9 bits are compared against the marker (`none` models the panic of that
peek when fewer than 9 bits remain).  The boolean of the result records
whether the loop ended by recognising the marker (`break`) rather than by
exhausting the stream.  Each iteration consumes at least 9 bits, so fuel
`bits.length + 1` is always sufficient. -/
def dNodesLoop : Nat → List Bool → List NodeType → Option (List NodeType × Bool)
  | 0, _, _ => none
  | fuel + 1, bits, acc =>
    if bits.isEmpty then some (acc.reverse, false)
    else
      (decodeToken bits).bind (fun nodeRest =>
        if nodeRest.2.length < 9 then none
        else if nodeRest.2.take 9 = endOfStreamMarker then
          some ((nodeRest.1 :: acc).reverse, true)
        else dNodesLoop fuel nodeRest.2 (nodeRest.1 :: acc))

/-- `deserialise_nodes`, instrumented with whether the end-of-stream marker
was recognised. -/
def deserialise_nodes_flagged (fileBytes : List Nat) : Option (List NodeType × Bool) :=
  dNodesLoop (8 * fileBytes.length + 1) (bytesToBits fileBytes) []

/-- `deserialise_nodes`: the token list produced from a byte stream
(`none` models a panic). -/
def deserialise_nodes (fileBytes : List Nat) : Option (List NodeType) :=
  (deserialise_nodes_flagged fileBytes).map Prod.fst

/-! ## Pipeline façade (src/src/lz77/mod.rs) -/

/-- `Lz77Compression::compress_bytes`: tokenize, serialise, append the end
marker, pack into bytes. -/
def compress_bytes (fileBytes : List Nat) : Option (List Nat) :=
  (build_lz77_node_list fileBytes).bind (fun nodes =>
    (serailise_nodes nodes).map (fun encodedNodes =>
      bitsToBytes (append_end_marker encodedNodes)))

/-- `Lz77Compression::decompress_bytes`: deserialise then replay. -/
def decompress_bytes (compressedBytes : List Nat) : Option (List Nat) :=
  (deserialise_nodes compressedBytes).bind decompress_nodes

/-! ## List-slice helper lemmas -/

theorem listSlice_length {α : Type} (l : List α) (a b : Nat) :
    (listSlice l a b).length = min (b - a) (l.length - a) := by
  simp [listSlice]

theorem listSlice_getD {α : Type} (l : List α) (a b i : Nat) (d : α) (h : i < b - a) :
    (listSlice l a b).getD i d = l.getD (a + i) d := by
  simp only [listSlice, List.getD_eq_getElem?_getD]
  rw [List.getElem?_take_of_lt h, List.getElem?_drop]

theorem listSlice_append {α : Type} (l : List α) (a p b : Nat) (h1 : a ≤ p) (h2 : p ≤ b) :
    listSlice l a p ++ listSlice l p b = listSlice l a b := by
  have hb : b - a = (p - a) + (b - p) := by omega
  have hp : a + (p - a) = p := by omega
  rw [listSlice, listSlice, listSlice, hb, List.take_add, List.drop_drop, hp]

theorem listSlice_drop {α : Type} (l : List α) (a b c : Nat) :
    (listSlice l a b).drop c = listSlice l (a + c) b := by
  rw [listSlice, listSlice, List.drop_take, List.drop_drop]
  congr 1
  omega

theorem take_eq_listSlice {α : Type} (l : List α) (b : Nat) : l.take b = listSlice l 0 b := by
  simp [listSlice]

theorem take_append_listSlice {α : Type} (l : List α) (p q : Nat) (h : p ≤ q) :
    l.take p ++ listSlice l p q = l.take q := by
  rw [listSlice]
  have hq : q = p + (q - p) := by omega
  conv_rhs => rw [hq, List.take_add]

theorem listSlice_singleton (l : List Nat) (p : Nat) (h : p < l.length) :
    listSlice l p (p + 1) = [l.getD p 0] := by
  have h1 : (listSlice l p (p + 1)).length = 1 := by
    rw [listSlice_length]; omega
  match hs : listSlice l p (p + 1) with
  | [] => rw [hs] at h1; simp at h1
  | x :: y :: t => rw [hs] at h1; simp at h1
  | [x] =>
    have hg := listSlice_getD l p (p + 1) 0 0 (by omega)
    rw [hs] at hg
    simp only [List.getD_cons_zero, Nat.add_zero] at hg
    rw [hg]

theorem listSlice_listSlice (l : List Nat) (s e a b : Nat) :
    listSlice (listSlice l s e) a b = listSlice l (s + a) (min e (s + b)) := by
  rw [listSlice, listSlice, List.drop_take, List.take_take, List.drop_drop, listSlice]
  have h2 : min (b - a) (e - s - a) = min e (s + b) - (s + a) := by omega
  rw [h2]

theorem listSlice_ext (l : List Nat) (a b c d : Nat) (hb : b ≤ l.length) (hd : d ≤ l.length)
    (hlen : b - a = d - c) (h : ∀ k, k < b - a → l.getD (a + k) 0 = l.getD (c + k) 0) :
    listSlice l a b = listSlice l c d := by
  apply List.ext_getElem
  · rw [listSlice_length, listSlice_length]; omega
  · intro n h1 h2
    have hn : n < b - a := by
      have := h1
      rw [listSlice_length] at this
      omega
    have e1 := listSlice_getD l a b n 0 hn
    have e2 := listSlice_getD l c d n 0 (by omega)
    have g1 : (listSlice l a b)[n] = (listSlice l a b).getD n 0 := by
      simp [List.getD_eq_getElem?_getD, List.getElem?_eq_getElem h1]
    have g2 : (listSlice l c d)[n] = (listSlice l c d).getD n 0 := by
      simp [List.getD_eq_getElem?_getD, List.getElem?_eq_getElem h2]
    rw [g1, g2, e1, e2]
    exact h n hn

/-! ## Bit-level helper lemmas -/

theorem natBits_length (w n : Nat) : (natBits w n).length = w := by
  simp [natBits]

theorem natBits_succ (w n : Nat) : natBits (w + 1) n = n.testBit w :: natBits w n := by
  simp only [natBits, List.range_succ_eq_map, List.map_cons, List.map_map]
  congr 1
  apply List.map_congr_left
  intro j hj
  rw [List.mem_range] at hj
  simp only [Function.comp_apply]
  congr 1
  omega

theorem bitsToNat_cons (b : Bool) (bs : List Bool) :
    bitsToNat (b :: bs) = (if b then 1 else 0) * 2 ^ bs.length + bitsToNat bs := by
  have key : ∀ (l : List Bool) (a : Nat),
      l.foldl (fun a b => 2 * a + (if b then 1 else 0)) a =
      a * 2 ^ l.length + l.foldl (fun a b => 2 * a + (if b then 1 else 0)) 0 := by
    intro l
    induction l with
    | nil => intro a; simp
    | cons x xs ih =>
      intro a
      rw [List.foldl_cons, List.foldl_cons, ih, ih (2 * 0 + if x then 1 else 0)]
      simp only [List.length_cons]
      ring_nf
      cases x <;> (simp; try ring)
  rw [bitsToNat, List.foldl_cons, key, bitsToNat]
  cases b <;> simp

theorem bitsToNat_lt (bs : List Bool) : bitsToNat bs < 2 ^ bs.length := by
  induction bs with
  | nil => simp [bitsToNat]
  | cons b t ih =>
    rw [bitsToNat_cons]
    simp only [List.length_cons, pow_succ]
    cases b <;> simp <;> omega

theorem bitsToNat_natBits (w n : Nat) : bitsToNat (natBits w n) = n % 2 ^ w := by
  induction w with
  | zero => simp [natBits, bitsToNat, Nat.mod_one]
  | succ w ih =>
    rw [natBits_succ, bitsToNat_cons, natBits_length, ih]
    have hm : n % 2 ^ (w + 1) = n % 2 ^ w + 2 ^ w * (n / 2 ^ w % 2) := Nat.mod_pow_succ
    have hb : n.testBit w = decide (n / 2 ^ w % 2 = 1) := Nat.testBit_to_div_mod
    have h2 : n / 2 ^ w % 2 = 0 ∨ n / 2 ^ w % 2 = 1 := by omega
    rcases h2 with h2 | h2
    · rw [hm, h2, hb, h2]; simp
    · rw [hm, h2, hb, h2]; simp; omega

theorem bitsToNat_natBits_eq (w n : Nat) (h : n < 2 ^ w) : bitsToNat (natBits w n) = n := by
  rw [bitsToNat_natBits, Nat.mod_eq_of_lt h]

theorem natBits_mod (w n : Nat) : natBits w (n % 2 ^ w) = natBits w n := by
  rw [natBits, natBits]
  apply List.map_congr_left
  intro j hj
  rw [List.mem_range] at hj
  rw [Nat.testBit_mod_two_pow]
  have hw : w - 1 - j < w := by omega
  simp [hw]

theorem natBits_bitsToNat (bs : List Bool) : natBits bs.length (bitsToNat bs) = bs := by
  induction bs with
  | nil => simp [natBits, bitsToNat]
  | cons b t ih =>
    rw [List.length_cons, natBits_succ, bitsToNat_cons]
    have hlt := bitsToNat_lt t
    have hpos : 0 < 2 ^ t.length := Nat.pos_pow_of_pos _ (by omega)
    have hdiv : ((if b then 1 else 0) * 2 ^ t.length + bitsToNat t) / 2 ^ t.length =
        (if b then 1 else 0) := by
      rw [Nat.mul_comm, Nat.mul_add_div hpos, Nat.div_eq_of_lt hlt, Nat.add_zero]
    have hhead : Nat.testBit ((if b then 1 else 0) * 2 ^ t.length + bitsToNat t) t.length = b := by
      rw [Nat.testBit_to_div_mod, hdiv]
      cases b <;> simp
    have htail : natBits t.length ((if b then 1 else 0) * 2 ^ t.length + bitsToNat t) =
        natBits t.length (bitsToNat t) := by
      conv_lhs => rw [← natBits_mod]
      conv_rhs => rw [← natBits_mod]
      rw [Nat.mul_comm, Nat.mul_add_mod]
    rw [hhead, htail, ih]

theorem bytesToBits_length (bytes : List Nat) : (bytesToBits bytes).length = 8 * bytes.length := by
  induction bytes with
  | nil => simp [bytesToBits]
  | cons b t ih =>
    simp only [bytesToBits, List.flatMap_cons] at *
    rw [List.length_append, ih]
    simp [byteBits, natBits_length]
    ring

theorem bytesToBits_cons (b : Nat) (t : List Nat) :
    bytesToBits (b :: t) = byteBits b ++ bytesToBits t := by
  simp [bytesToBits]

theorem bytesToBits_bitsToBytes (bits : List Bool) (h : 8 ∣ bits.length) :
    bytesToBits (bitsToBytes bits) = bits := by
  induction bits using bitsToBytes.induct with
  | case1 => simp [bitsToBytes, bytesToBits]
  | case2 b0 b1 b2 b3 b4 b5 b6 b7 rest ih =>
    rw [bitsToBytes, bytesToBits_cons]
    have hr : 8 ∣ rest.length := by
      simp only [List.length_cons] at h
      omega
    rw [ih hr]
    have h8 : ([b0, b1, b2, b3, b4, b5, b6, b7] : List Bool).length = 8 := rfl
    have := natBits_bitsToNat [b0, b1, b2, b3, b4, b5, b6, b7]
    rw [h8] at this
    rw [byteBits, this]
    rfl
  | case3 bs h1 h2 =>
    exfalso
    rcases bs with _ | ⟨x0, _ | ⟨x1, _ | ⟨x2, _ | ⟨x3, _ | ⟨x4, _ | ⟨x5, _ | ⟨x6, _ | ⟨x7, t⟩⟩⟩⟩⟩⟩⟩⟩
    all_goals first
      | exact h1 rfl
      | exact h2 _ _ _ _ _ _ _ _ _ rfl
      | (simp only [List.length_cons, List.length_nil] at h; omega)

/-! ## Window behaviour on monotone advances -/

theorem advanceToPointer_spec (bytes : List Nat) (maxW cur ptr : Nat)
    (hcur : cur ≤ ptr) (hlen : ptr - maxW ≤ bytes.length) :
    ∃ adv, ByteWindow.advanceToPointer ⟨bytes, maxW, cur⟩ ptr =
        some (adv, ⟨bytes, maxW, ptr⟩) ∧
      adv.window = listSlice bytes (ptr - maxW) (min bytes.length ptr) := by
  simp only [ByteWindow.advanceToPointer]
  have h1 : ¬(cur < bytes.length ∧ min bytes.length ptr < cur) := by omega
  have h2 : ¬(cur - maxW < ptr - maxW ∧ cur - maxW < bytes.length ∧
      bytes.length < ptr - maxW) := by omega
  rw [if_neg h1, if_neg h2]
  refine ⟨_, rfl, ?_⟩
  simp only
  split
  · rfl
  · rename_i hcond
    rw [listSlice]
    have hz : min bytes.length ptr - (ptr - maxW) = 0 := by omega
    rw [hz]
    simp

/-! ## Longest-common-prefix facts about find_length_of_series_match -/

theorem series_match_le_left (a b : List Nat) :
    find_length_of_series_match a b ≤ a.length := by
  induction a generalizing b with
  | nil => simp [find_length_of_series_match]
  | cons l ls ih =>
    cases b with
    | nil => simp [find_length_of_series_match]
    | cons r rs =>
      rw [find_length_of_series_match]
      split
      · have := ih rs
        simp only [List.length_cons]
        omega
      · simp

theorem series_match_le_right (a b : List Nat) :
    find_length_of_series_match a b ≤ b.length := by
  induction a generalizing b with
  | nil => simp [find_length_of_series_match]
  | cons l ls ih =>
    cases b with
    | nil => simp [find_length_of_series_match]
    | cons r rs =>
      rw [find_length_of_series_match]
      split
      · have := ih rs
        simp only [List.length_cons]
        omega
      · simp

theorem series_match_agree (a b : List Nat) (k : Nat)
    (h : k < find_length_of_series_match a b) : a.getD k 0 = b.getD k 0 := by
  induction a generalizing b k with
  | nil => simp [find_length_of_series_match] at h
  | cons l ls ih =>
    cases b with
    | nil => simp [find_length_of_series_match] at h
    | cons r rs =>
      rw [find_length_of_series_match] at h
      by_cases heq : l = r
      · rw [if_pos heq] at h
        cases k with
        | zero => simpa using heq
        | succ k =>
          simp only [List.getD_cons_succ]
          exact ih rs k (by omega)
      · rw [if_neg heq] at h
        omega

/-! ## Soundness of the reverse match scan -/

/-- What a non-trivial scan state represents: a genuine match of the head
byte `c` at index `j` of the search slice, extended by the longest common
prefix with the look-ahead. -/
def ScanFound (c : Nat) (search pfx : List Nat) (st : Nat × Nat) : Prop :=
  2 ≤ st.2 ∧ ∃ j, j < search.length ∧ st.1 = search.length - j ∧ search.getD j 0 = c ∧
    st.2 = find_length_of_series_match (search.drop (j + 1)) pfx + 1

theorem calcStep_sound (c : Nat) (search pfx : List Nat) (i : Nat) (st : Nat × Nat)
    (hi : i < search.length)
    (h : st = (0, 0) ∨ ScanFound c search pfx st) :
    calcStep c search pfx i st = (0, 0) ∨
      ScanFound c search pfx (calcStep c search pfx i st) := by
  simp only [calcStep]
  split
  · rename_i hc
    split
    · rename_i hm
      right
      refine ⟨?_, i, hi, rfl, hc, rfl⟩
      rcases h with h | h
      · rw [h] at hm
        simp only at hm
        omega
      · have := h.1
        omega
    · exact h
  · exact h

theorem calcScan_sound (c : Nat) (search pfx : List Nat) (i : Nat) (st : Nat × Nat)
    (hi : i < search.length)
    (h : st = (0, 0) ∨ ScanFound c search pfx st) :
    calcScan c search pfx i st = (0, 0) ∨
      ScanFound c search pfx (calcScan c search pfx i st) := by
  induction i generalizing st with
  | zero => exact calcStep_sound c search pfx 0 st hi h
  | succ i ih =>
    rw [calcScan]
    exact ih (calcStep c search pfx (i + 1) st) (by omega)
      (calcStep_sound c search pfx (i + 1) st hi h)

theorem calculate_reference_node_spec (c : Nat) (search pfx : List Nat) (o l : Nat)
    (h : calculate_reference_node c search pfx = some (some (NodeType.reference o l))) :
    1 ≤ o ∧ o ≤ search.length ∧ 2 ≤ l ∧ l ≤ o ∧ l ≤ pfx.length + 1 ∧
      ∃ j, j < search.length ∧ o = search.length - j ∧ search.getD j 0 = c ∧
        ∀ k, k < l - 1 → (search.drop (j + 1)).getD k 0 = pfx.getD k 0 := by
  rw [calculate_reference_node] at h
  by_cases hs : search.length > 0
  · rw [if_pos hs] at h
    have hsound := calcScan_sound c search pfx (search.length - 1) (0, 0) (by omega) (Or.inl rfl)
    set st := calcScan c search pfx (search.length - 1) (0, 0) with hst
    rcases hsound with hz | hf
    · rw [hz] at h
      simp at h
    · have h2 := hf.1
      rw [if_neg (by omega)] at h
      split at h
      · exact absurd h (by simp)
      · simp only [Option.some.injEq, NodeType.reference.injEq] at h
        obtain ⟨ho, hl⟩ := h
        obtain ⟨hst2, j, hj, hst1, hgd, hfm⟩ := hf
        subst ho hl
        have hdl : (search.drop (j + 1)).length = search.length - (j + 1) := by
          simp
        have hml := series_match_le_left (search.drop (j + 1)) pfx
        have hmr := series_match_le_right (search.drop (j + 1)) pfx
        refine ⟨by omega, by omega, by omega, by omega, by omega, j, hj, hst1, hgd, ?_⟩
        intro k hk
        apply series_match_agree
        omega
  · rw [if_neg hs] at h
    simp at h

/-! ## The coverage invariant produced by the tokenizer -/

/-- `Covers B p ns`: replaying `ns` starting at position `p` reproduces
`B[p..]`, every reference points back into already-produced output by at
most 2047 bytes, is at least 2 long, never longer than its offset, and
its source range repeats the target range byte for byte. -/
inductive Covers (B : List Nat) : Nat → List NodeType → Prop
  | nil : Covers B B.length []
  | lit (p : Nat) (ns : List NodeType) (hp : p < B.length) (h : Covers B (p + 1) ns) :
      Covers B p (NodeType.byteLiteral (B.getD p 0) :: ns)
  | ref (p o l : Nat) (ns : List NodeType) (ho1 : 1 ≤ o) (ho2 : o ≤ SEARCH_WINDOW_SIZE)
      (hop : o ≤ p) (hl2 : 2 ≤ l) (hlo : l ≤ o) (hpl : p + l ≤ B.length)
      (hmatch : ∀ k, k < l → B.getD (p - o + k) 0 = B.getD (p + k) 0)
      (h : Covers B (p + l) ns) : Covers B p (NodeType.reference o l :: ns)

theorem calculate_reference_node_shape (c : Nat) (search pfx : List Nat) (n : NodeType)
    (h : calculate_reference_node c search pfx = some (some n)) :
    ∃ o l, n = NodeType.reference o l := by
  rw [calculate_reference_node] at h
  split at h
  all_goals split at h
  all_goals try split at h
  all_goals first
    | (simp only [Option.some.injEq] at h
       exact ⟨_, _, h.symm⟩)
    | simp at h

theorem calculate_reference_node_ne_none (c : Nat) (search pfx : List Nat)
    (hs : search.length ≤ 65535) :
    calculate_reference_node c search pfx ≠ none := by
  rw [calculate_reference_node]
  by_cases hlen : search.length > 0
  · rw [if_pos hlen]
    have hsound := calcScan_sound c search pfx (search.length - 1) (0, 0) (by omega) (Or.inl rfl)
    set st := calcScan c search pfx (search.length - 1) (0, 0) with hst
    rcases hsound with hz | hf
    · rw [hz]
      simp
    · obtain ⟨h2, j, hj, h1, hgd, hm⟩ := hf
      have hml := series_match_le_left (search.drop (j + 1)) pfx
      have hdl : (search.drop (j + 1)).length = search.length - (j + 1) := by simp
      rw [if_neg (by omega), if_neg (by omega)]
      simp
  · rw [if_neg hlen]
    simp

theorem buildLoop_covers (B : List Nat) (fuel : Nat) :
    ∀ p acc scur pcur, p < B.length → B.length - p < fuel → scur ≤ p →
      pcur ≤ p + PREFIX_WINDOW_SIZE + 1 →
      ∃ ns, buildLoop B fuel ⟨B, SEARCH_WINDOW_SIZE, scur⟩ ⟨B, PREFIX_WINDOW_SIZE, pcur⟩ p acc =
          some (acc.reverse ++ ns) ∧ Covers B p ns := by
  have hS : SEARCH_WINDOW_SIZE = 2047 := rfl
  have hP : PREFIX_WINDOW_SIZE = 2048 := rfl
  induction fuel with
  | zero =>
    intro p acc scur pcur hp hf hs hpc
    omega
  | succ fuel ih =>
    intro p acc scur pcur hp hf hs hpc
    obtain ⟨sadv, hseq, hswin⟩ :=
      advanceToPointer_spec B SEARCH_WINDOW_SIZE scur p hs (by omega)
    obtain ⟨padv, hpeq, hpwin⟩ :=
      advanceToPointer_spec B PREFIX_WINDOW_SIZE pcur (p + PREFIX_WINDOW_SIZE + 1) hpc (by omega)
    have hminp : min B.length p = p := by omega
    have hpfxa : p + PREFIX_WINDOW_SIZE + 1 - PREFIX_WINDOW_SIZE = p + 1 := by omega
    rw [hminp] at hswin
    rw [hpfxa] at hpwin
    have hslen : sadv.window.length = p - (p - SEARCH_WINDOW_SIZE) := by
      rw [hswin, listSlice_length]
      omega
    have hplen : padv.window.length = min B.length (p + PREFIX_WINDOW_SIZE + 1) - (p + 1) := by
      rw [hpwin, listSlice_length]
      omega
    simp only [buildLoop, if_pos hp, hseq, hpeq]
    cases hcalc : calculate_reference_node (B.getD p 0) sadv.window padv.window with
    | none =>
      exfalso
      exact calculate_reference_node_ne_none _ _ _ (by rw [hslen]; omega) hcalc
    | some inner =>
      cases inner with
      | none =>
        simp only
        by_cases hend : p + 1 > B.length - 1
        · rw [if_pos hend]
          refine ⟨[NodeType.byteLiteral (B.getD p 0)], ?_, ?_⟩
          · rw [List.reverse_cons]
          · have hpe : p + 1 = B.length := by omega
            exact Covers.lit p [] hp (hpe ▸ Covers.nil)
        · rw [if_neg hend]
          obtain ⟨ns', heq', hcov'⟩ := ih (p + 1) (NodeType.byteLiteral (B.getD p 0) :: acc) p
            (p + PREFIX_WINDOW_SIZE + 1) (by omega) (by omega) (by omega) (by omega)
          refine ⟨NodeType.byteLiteral (B.getD p 0) :: ns', ?_, ?_⟩
          · rw [heq', List.reverse_cons, List.append_assoc]
            rfl
          · exact Covers.lit p ns' hp hcov'
      | some node =>
        cases node with
        | byteLiteral lit =>
          obtain ⟨o, l, hno⟩ := calculate_reference_node_shape _ _ _ _ hcalc
          exact absurd hno (by simp)
        | endOfStream =>
          obtain ⟨o, l, hno⟩ := calculate_reference_node_shape _ _ _ _ hcalc
          exact absurd hno (by simp)
        | reference o l =>
          obtain ⟨ho1, hos, hl2, hlo, hlp, j, hj, hoj, hgd, hfm⟩ :=
            calculate_reference_node_spec _ _ _ o l hcalc
          simp only
          rw [hslen] at hj hoj hos
          have hop : o ≤ p := by omega
          have ho2 : o ≤ SEARCH_WINDOW_SIZE := by omega
          have hppl : p + l ≤ B.length := by
            rw [hplen] at hlp
            omega
          have hgdB : B.getD (p - SEARCH_WINDOW_SIZE + j) 0 = B.getD p 0 := by
            rw [hswin] at hgd
            rw [← hgd]
            exact (listSlice_getD B (p - SEARCH_WINDOW_SIZE) p j 0 (by omega)).symm
          have hmatch : ∀ k, k < l → B.getD (p - o + k) 0 = B.getD (p + k) 0 := by
            intro k hk
            cases k with
            | zero =>
              have hidx : p - o + 0 = p - SEARCH_WINDOW_SIZE + j := by omega
              rw [hidx, hgdB]
              rfl
            | succ k =>
              have hfmk := hfm k (by omega)
              rw [hswin, listSlice_drop] at hfmk
              have hgl := listSlice_getD B (p - SEARCH_WINDOW_SIZE + (j + 1)) p k 0 (by omega)
              have hgr := listSlice_getD B (p + 1) (min B.length (p + PREFIX_WINDOW_SIZE + 1)) k 0
                (by rw [hplen] at hlp; omega)
              rw [hpwin] at hfmk
              rw [hgl, hgr] at hfmk
              have hi1 : p - SEARCH_WINDOW_SIZE + (j + 1) + k = p - o + (k + 1) := by omega
              have hi2 : p + 1 + k = p + (k + 1) := by omega
              rw [hi1, hi2] at hfmk
              exact hfmk
          by_cases hend : p + l > B.length - 1
          · rw [if_pos hend]
            refine ⟨[NodeType.reference o l], ?_, ?_⟩
            · rw [List.reverse_cons]
            · have hpe : p + l = B.length := by omega
              exact Covers.ref p o l [] ho1 ho2 hop hl2 hlo hppl hmatch (hpe ▸ Covers.nil)
          · rw [if_neg hend]
            obtain ⟨ns', heq', hcov'⟩ := ih (p + l) (NodeType.reference o l :: acc) p
              (p + PREFIX_WINDOW_SIZE + 1) (by omega) (by omega) (by omega) (by omega)
            refine ⟨NodeType.reference o l :: ns', ?_, ?_⟩
            · rw [heq', List.reverse_cons, List.append_assoc]
              rfl
            · exact Covers.ref p o l ns' ho1 ho2 hop hl2 hlo hppl hmatch hcov'


theorem build_covers (B : List Nat) (ns : List NodeType)
    (h : build_lz77_node_list B = some ns) : Covers B 0 ns := by
  rcases B with _ | ⟨b, t⟩
  · rw [build_lz77_node_list] at h
    simp [buildLoop] at h
  · obtain ⟨ns', heq, hcov⟩ := buildLoop_covers (b :: t) ((b :: t).length + 1) 0 [] 0 0
      (by simp) (by omega) (by omega) (by omega)
    rw [build_lz77_node_list] at h
    rw [heq] at h
    simp only [List.reverse_nil, List.nil_append, Option.some.injEq] at h
    rw [← h]
    exact hcov

/-! ## Replaying a covered token list reproduces the input -/

theorem pushAll_slice (B : List Nat) (p l : Nat) (hpl : p + l ≤ B.length)
    (hl : l ≤ SEARCH_WINDOW_SIZE) :
    ByteBuffer.pushAll (listSlice B (p - SEARCH_WINDOW_SIZE) p) (listSlice B p (p + l))
      SEARCH_WINDOW_SIZE = some (listSlice B (p + l - SEARCH_WINDOW_SIZE) (p + l)) := by
  have hS : SEARCH_WINDOW_SIZE = 2047 := rfl
  have hblen : (listSlice B (p - SEARCH_WINDOW_SIZE) p).length =
      p - (p - SEARCH_WINDOW_SIZE) := by
    rw [listSlice_length]
    omega
  have helen : (listSlice B p (p + l)).length = l := by
    rw [listSlice_length]
    omega
  simp only [ByteBuffer.pushAll, hblen, helen]
  split
  · rename_i hc
    rw [if_pos (by omega)]
    simp only [Option.some.injEq]
    rw [listSlice_drop, listSlice_append B
      (p - SEARCH_WINDOW_SIZE + (p - (p - SEARCH_WINDOW_SIZE) + l - SEARCH_WINDOW_SIZE)) p
      (p + l) (by omega) (by omega)]
    have harg : p - SEARCH_WINDOW_SIZE + (p - (p - SEARCH_WINDOW_SIZE) + l - SEARCH_WINDOW_SIZE)
        = p + l - SEARCH_WINDOW_SIZE := by omega
    rw [harg]
  · rename_i hc
    simp only [Option.some.injEq]
    rw [listSlice_append B (p - SEARCH_WINDOW_SIZE) p (p + l) (by omega) (by omega)]
    have harg : p - SEARCH_WINDOW_SIZE = p + l - SEARCH_WINDOW_SIZE := by omega
    rw [harg]

theorem decompLoop_covers (B : List Nat) (ns : List NodeType) (p : Nat)
    (hcov : Covers B p ns) :
    decompLoop ns (listSlice B (p - SEARCH_WINDOW_SIZE) p) (B.take p) = some B := by
  induction hcov with
  | nil => rw [decompLoop, List.take_length]
  | lit p ns hp h ih =>
    have hone : ([B.getD p 0] : List Nat) = listSlice B p (p + 1) :=
      (listSlice_singleton B p hp).symm
    simp only [decompLoop, hone]
    rw [pushAll_slice B p 1 (by omega) (by rw [SEARCH_WINDOW_SIZE]; omega)]
    simp only
    rw [take_append_listSlice B p (p + 1) (by omega)]
    exact ih
  | ref p o l ns ho1 ho2 hop hl2 hlo hpl hmatch h ih =>
    have hS : SEARCH_WINDOW_SIZE = 2047 := rfl
    have hblen : (listSlice B (p - SEARCH_WINDOW_SIZE) p).length =
        p - (p - SEARCH_WINDOW_SIZE) := by
      rw [listSlice_length]
      omega
    have hbslice : listSlice (listSlice B (p - SEARCH_WINDOW_SIZE) p)
        ((listSlice B (p - SEARCH_WINDOW_SIZE) p).length - o)
        ((listSlice B (p - SEARCH_WINDOW_SIZE) p).length - o + l) = listSlice B p (p + l) := by
      rw [hblen, listSlice_listSlice]
      have e1 : p - SEARCH_WINDOW_SIZE + (p - (p - SEARCH_WINDOW_SIZE) - o) = p - o := by
        omega
      have e2 : min p (p - SEARCH_WINDOW_SIZE + (p - (p - SEARCH_WINDOW_SIZE) - o + l)) =
          p - o + l := by omega
      rw [e1, e2]
      apply listSlice_ext B _ _ _ _ (by omega) (by omega) (by omega)
      intro k hk
      exact hmatch k (by omega)
    simp only [decompLoop]
    rw [if_pos (by rw [hblen]; omega), if_pos (by rw [hblen]; omega), hbslice]
    rw [pushAll_slice B p l hpl (by omega)]
    simp only
    rw [take_append_listSlice B p (p + l) (by omega)]
    exact ih

theorem decompress_nodes_covers (B : List Nat) (ns : List NodeType) (h : Covers B 0 ns) :
    decompress_nodes ns = some B := by
  have hd := decompLoop_covers B ns 0 h
  rw [decompress_nodes]
  simpa [listSlice] using hd

/-! ## Length codec roundtrip -/

theorem flatten_replicate_length (k : Nat) :
    ((List.replicate k [true, true, true, true]).flatten).length = 4 * k := by
  induction k with
  | zero => simp
  | succ k ih =>
    rw [List.replicate_succ, List.flatten_cons, List.length_append, ih]
    simp
    omega

theorem serialise_length_general (m : Nat) :
    serialise_length (m + 8) =
      if 255 < (m + 8) - (((m + 8) + 7) / 15 * 15 - 7) then none
      else some ((List.replicate (((m + 8) + 7) / 15) [true, true, true, true]).flatten ++
        natBits 4 ((m + 8) - (((m + 8) + 7) / 15 * 15 - 7))) := rfl

theorem blockLoop_replicate (s : List Bool) (k j : Nat) :
    blockLoop ((List.replicate k [true, true, true, true]).flatten ++ s) j =
      blockLoop s (j + k) := by
  induction k generalizing j with
  | zero => simp
  | succ k ih =>
    rw [List.replicate_succ, List.flatten_cons, List.append_assoc]
    simp only [List.cons_append, List.nil_append]
    rw [blockLoop]
    rw [if_pos ⟨rfl, rfl, rfl, rfl⟩, ih]
    congr 1
    omega

theorem blockLoop_final (v : Nat) (hv : v < 15) (s : List Bool) (j : Nat) (hj1 : 1 ≤ j)
    (hj2 : j ≤ 4096) :
    blockLoop (natBits 4 v ++ s) j = some (j * 15 - 7 + v, j * 4 + 4) := by
  have h4 : natBits 4 v = [v.testBit 3, v.testBit 2, v.testBit 1, v.testBit 0] := rfl
  have hb : bitsToNat (natBits 4 v) = v := bitsToNat_natBits_eq 4 v (by omega)
  have hcond : ¬(v.testBit 3 = true ∧ v.testBit 2 = true ∧ v.testBit 1 = true ∧
      v.testBit 0 = true) := by
    rintro ⟨a, b, c, d⟩
    rw [h4, a, b, c, d] at hb
    rw [show bitsToNat [true, true, true, true] = 15 from rfl] at hb
    omega
  rw [h4]
  simp only [List.cons_append, List.nil_append]
  rw [blockLoop, if_neg hcond, if_neg (by omega)]
  have hbv : bitsToNat [v.testBit 3, v.testBit 2, v.testBit 1, v.testBit 0] = v := by
    rw [← h4]
    exact hb
  rw [hbv, if_neg (by omega), if_neg (by omega)]

theorem deserialise_length_encoding (l : Nat) (h2 : 2 ≤ l) (h3 : l ≤ 2047) (r : List Bool) :
    ∃ e, serialise_length l = some e ∧
      deserialise_length (e ++ r) = some (l, e.length) := by
  by_cases hb : l ≤ 7
  · interval_cases l
    · exact ⟨[false, false], rfl, by simp [deserialise_length]⟩
    · exact ⟨[false, true], rfl, by simp [deserialise_length]⟩
    · exact ⟨[true, false], rfl, by simp [deserialise_length]⟩
    · exact ⟨[true, true, false, false], rfl, by simp [deserialise_length]⟩
    · exact ⟨[true, true, false, true], rfl, by simp [deserialise_length]⟩
    · exact ⟨[true, true, true, false], rfl, by simp [deserialise_length]⟩
  · obtain ⟨m, rfl⟩ : ∃ m, l = m + 8 := ⟨l - 8, by omega⟩
    obtain ⟨k, hk⟩ : ∃ k, (m + 8 + 7) / 15 = k := ⟨_, rfl⟩
    obtain ⟨v, hv⟩ : ∃ v, (m + 8 + 7) % 15 = v := ⟨_, rfl⟩
    have hdm := Nat.div_add_mod (m + 8 + 7) 15
    have hmod : (m + 8 + 7) % 15 < 15 := Nat.mod_lt _ (by omega)
    rw [hk, hv] at hdm
    rw [hv] at hmod
    have hk1 : 1 ≤ k := by omega
    have hk2 : k ≤ 136 := by omega
    have hadj : (m + 8) - (k * 15 - 7) = v := by omega
    rw [serialise_length_general, hk, hadj, if_neg (by omega)]
    refine ⟨_, rfl, ?_⟩
    obtain ⟨k', rfl⟩ : ∃ k', k = k' + 1 := ⟨k - 1, by omega⟩
    have hsl : ((List.replicate (k' + 1) [true, true, true, true]).flatten ++ natBits 4 v) ++ r =
        true :: true :: true :: true ::
          ((List.replicate k' [true, true, true, true]).flatten ++ (natBits 4 v ++ r)) := by
      simp [List.replicate_succ]
    have hred : ∀ w : List Bool,
        deserialise_length (true :: true :: true :: true :: w) =
          blockLoop (true :: true :: true :: true :: w) 0 := fun w => rfl
    rw [hsl, hred, ← hsl, List.append_assoc, blockLoop_replicate, Nat.zero_add,
      blockLoop_final v (by omega) r (k' + 1) (by omega) (by omega)]
    have hlen : ((List.replicate (k' + 1) [true, true, true, true]).flatten ++
        natBits 4 v).length = 4 * (k' + 1) + 4 := by
      rw [List.length_append, flatten_replicate_length, natBits_length]
    have h1 : (k' + 1) * 15 - 7 + v = m + 8 := by omega
    have h2 : (k' + 1) * 4 + 4 = 4 * (k' + 1) + 4 := by omega
    rw [h1, h2, hlen]

/-! ## Well-formed nodes and their encodings -/

/-- The node shapes the tokenizer can produce, as far as the codec cares:
byte values fit in 8 bits, offsets in 11 bits, lengths in the range the
length code covers. -/
def WFNode : NodeType → Prop
  | NodeType.byteLiteral lit => lit < 256
  | NodeType.reference offset length =>
      1 ≤ offset ∧ offset ≤ 2047 ∧ 2 ≤ length ∧ length ≤ 2047
  | NodeType.endOfStream => False

theorem covers_WF (B : List Nat) (hB : ∀ b ∈ B, b < 256) (p : Nat) (ns : List NodeType)
    (h : Covers B p ns) : ∀ n ∈ ns, WFNode n := by
  induction h with
  | nil => intro n hn; simp at hn
  | lit p ns hp h ih =>
    intro n hn
    rcases List.mem_cons.mp hn with hn | hn
    · subst hn
      have hmem : B.getD p 0 ∈ B := by
        rw [List.getD_eq_getElem?_getD, List.getElem?_eq_getElem hp]
        exact List.getElem_mem hp
      exact hB _ hmem
    · exact ih n hn
  | ref p o l ns ho1 ho2 hop hl2 hlo hpl hmatch h ih =>
    intro n hn
    rcases List.mem_cons.mp hn with hn | hn
    · subst hn
      have hS : SEARCH_WINDOW_SIZE = 2047 := rfl
      exact ⟨ho1, by omega, hl2, by omega⟩
    · exact ih n hn

theorem decodeToken_false (rest : List Bool) :
    decodeToken (false :: rest) =
      if 8 ≤ rest.length then
        some (NodeType.byteLiteral (bitsToNat (rest.take 8)), rest.drop 8)
      else none := rfl

theorem decodeToken_true_true (rest2 : List Bool) :
    decodeToken (true :: true :: rest2) =
      if 7 ≤ rest2.length then
        (deserialise_length (rest2.drop 7)).map (fun lengthBitsRead =>
          (NodeType.reference (bitsToNat (rest2.take 7)) lengthBitsRead.1,
            (rest2.drop 7).drop lengthBitsRead.2))
      else none := rfl

theorem decodeToken_true_false (rest2 : List Bool) :
    decodeToken (true :: false :: rest2) =
      if 11 ≤ rest2.length then
        (deserialise_length (rest2.drop 11)).map (fun lengthBitsRead =>
          (NodeType.reference (bitsToNat (rest2.take 11)) lengthBitsRead.1,
            (rest2.drop 11).drop lengthBitsRead.2))
      else none := rfl

theorem decodeToken_encodeNode (n : NodeType) (h : WFNode n) (e : List Bool)
    (henc : encodeNode n = some e) (r : List Bool) :
    decodeToken (e ++ r) = some (n, r) := by
  cases n with
  | byteLiteral b =>
    have he : e = false :: byteBits b := by
      rw [encodeNode] at henc
      simp only [Option.some.injEq] at henc
      exact henc.symm
    subst he
    rw [List.cons_append, decodeToken_false]
    have hlen : 8 ≤ (byteBits b ++ r).length := by
      rw [List.length_append, byteBits, natBits_length]
      omega
    have htake : (byteBits b ++ r).take 8 = byteBits b :=
      List.take_left' (by rw [byteBits, natBits_length])
    have hdrop : (byteBits b ++ r).drop 8 = r :=
      List.drop_left' (by rw [byteBits, natBits_length])
    rw [if_pos hlen, htake, hdrop, byteBits, bitsToNat_natBits_eq 8 b h]
  | endOfStream => exact absurd h (by simp [WFNode])
  | reference o l =>
    obtain ⟨ho1, ho2, hl2, hl3⟩ := h
    rw [encodeNode] at henc
    cases hsl : serialise_length l with
    | none => rw [hsl] at henc; simp at henc
    | some lenc =>
      rw [hsl] at henc
      simp only [Option.map_some'] at henc
      obtain ⟨elenc, hsl2, hdes⟩ := deserialise_length_encoding l hl2 (by omega) r
      rw [hsl] at hsl2
      have hlenc : lenc = elenc := by
        simp only [Option.some.injEq] at hsl2
        exact hsl2
      subst hlenc
      by_cases ho : o < 128
      · rw [if_pos ho] at henc
        simp only [Option.some.injEq] at henc
        subst henc
        show decodeToken (true :: true :: (natBits 7 o ++ lenc ++ r)) =
          some (NodeType.reference o l, r)
        rw [decodeToken_true_true]
        have hlen7 : 7 ≤ ((natBits 7 o ++ lenc) ++ r).length := by
          rw [List.append_assoc, List.length_append, natBits_length]
          omega
        have htake : ((natBits 7 o ++ lenc) ++ r).take 7 = natBits 7 o := by
          rw [List.append_assoc]
          exact List.take_left' (natBits_length 7 o)
        have hdrop : ((natBits 7 o ++ lenc) ++ r).drop 7 = lenc ++ r := by
          rw [List.append_assoc]
          exact List.drop_left' (natBits_length 7 o)
        rw [if_pos hlen7, hdrop, htake, hdes]
        simp only [Option.map_some']
        rw [bitsToNat_natBits_eq 7 o (by omega), List.drop_left]
      · rw [if_neg ho] at henc
        simp only [Option.some.injEq] at henc
        subst henc
        show decodeToken (true :: false :: (natBits 11 o ++ lenc ++ r)) =
          some (NodeType.reference o l, r)
        rw [decodeToken_true_false]
        have hlen11 : 11 ≤ ((natBits 11 o ++ lenc) ++ r).length := by
          rw [List.append_assoc, List.length_append, natBits_length]
          omega
        have htake : ((natBits 11 o ++ lenc) ++ r).take 11 = natBits 11 o := by
          rw [List.append_assoc]
          exact List.take_left' (natBits_length 11 o)
        have hdrop : ((natBits 11 o ++ lenc) ++ r).drop 11 = lenc ++ r := by
          rw [List.append_assoc]
          exact List.drop_left' (natBits_length 11 o)
        rw [if_pos hlen11, hdrop, htake, hdes]
        simp only [Option.map_some']
        rw [bitsToNat_natBits_eq 11 o (by omega), List.drop_left]

theorem encodeNode_some (n : NodeType) (h : WFNode n) :
    ∃ e, encodeNode n = some e ∧ 9 ≤ e.length := by
  cases n with
  | byteLiteral b =>
    refine ⟨_, rfl, ?_⟩
    simp [byteBits, natBits_length]
  | endOfStream => exact absurd h (by simp [WFNode])
  | reference o l =>
    obtain ⟨ho1, ho2, hl2, hl3⟩ := h
    obtain ⟨lenc, hsl, -⟩ := deserialise_length_encoding l hl2 (by omega) []
    rw [encodeNode, hsl, Option.map_some']
    by_cases ho : o < 128
    · rw [if_pos ho]
      refine ⟨_, rfl, ?_⟩
      simp only [List.length_cons, List.length_append, natBits_length]
      omega
    · rw [if_neg ho]
      refine ⟨_, rfl, ?_⟩
      simp only [List.length_cons, List.length_append, natBits_length]
      omega

theorem encodeNode_take9_ne_marker (n : NodeType) (h : WFNode n) (e : List Bool)
    (henc : encodeNode n = some e) (x : List Bool) :
    (e ++ x).take 9 ≠ endOfStreamMarker := by
  cases n with
  | byteLiteral b =>
    have he : e = false :: byteBits b := by
      rw [encodeNode] at henc
      simp only [Option.some.injEq] at henc
      exact henc.symm
    subst he
    intro heq
    rw [List.cons_append, List.take_succ_cons, endOfStreamMarker] at heq
    simp at heq
  | endOfStream => exact absurd h (by simp [WFNode])
  | reference o l =>
    obtain ⟨ho1, ho2, hl2, hl3⟩ := h
    rw [encodeNode] at henc
    cases hsl : serialise_length l with
    | none => rw [hsl] at henc; simp at henc
    | some lenc =>
      rw [hsl] at henc
      simp only [Option.map_some'] at henc
      by_cases ho : o < 128
      · rw [if_pos ho] at henc
        simp only [Option.some.injEq] at henc
        subst henc
        intro heq
        have htake9 : ((true :: true :: natBits 7 o ++ lenc) ++ x).take 9 =
            true :: true :: natBits 7 o := by
          show (true :: true :: ((natBits 7 o ++ lenc) ++ x)).take 9 =
            true :: true :: natBits 7 o
          rw [List.take_succ_cons, List.take_succ_cons, List.append_assoc,
            List.take_left' (natBits_length 7 o)]
        rw [htake9, endOfStreamMarker] at heq
        simp only [List.cons.injEq, true_and] at heq
        have hz : bitsToNat (natBits 7 o) = o := bitsToNat_natBits_eq 7 o (by omega)
        rw [heq] at hz
        rw [show bitsToNat [false, false, false, false, false, false, false] = 0 from rfl] at hz
        omega
      · rw [if_neg ho] at henc
        simp only [Option.some.injEq] at henc
        subst henc
        intro heq
        have htake9 : ((true :: false :: natBits 11 o ++ lenc) ++ x).take 9 =
            true :: false :: ((natBits 11 o ++ lenc) ++ x).take 7 := by
          show (true :: false :: ((natBits 11 o ++ lenc) ++ x)).take 9 =
            true :: false :: ((natBits 11 o ++ lenc) ++ x).take 7
          rw [List.take_succ_cons, List.take_succ_cons]
        rw [htake9, endOfStreamMarker] at heq
        simp at heq

theorem serailise_nodes_some (ns : List NodeType) (h : ∀ n ∈ ns, WFNode n) :
    ∃ enc, serailise_nodes ns = some enc ∧ ns.length ≤ enc.length := by
  induction ns with
  | nil => exact ⟨[], rfl, by simp⟩
  | cons n ns ih =>
    obtain ⟨e, he, h9⟩ := encodeNode_some n (h n (List.mem_cons_self n ns))
    obtain ⟨rest, hrest, hlen⟩ := ih (fun m hm => h m (List.mem_cons_of_mem n hm))
    refine ⟨e ++ rest, ?_, ?_⟩
    · rw [serailise_nodes, he, hrest]
      rfl
    · rw [List.length_append, List.length_cons]
      omega

theorem reverse_cons_append (n : NodeType) (acc a : List NodeType) :
    (n :: acc).reverse ++ a = acc.reverse ++ (n :: a) := by
  rw [List.reverse_cons, List.append_assoc]
  rfl

theorem dNodesLoop_decodes (pad : List Bool) (ns : List NodeType) :
    ∀ fuel acc enc, ns ≠ [] → (∀ n ∈ ns, WFNode n) → serailise_nodes ns = some enc →
      ns.length ≤ fuel →
      dNodesLoop fuel (enc ++ (endOfStreamMarker ++ pad)) acc =
        some (acc.reverse ++ ns, true) := by
  induction ns with
  | nil => intro fuel acc enc hne _ _ _; exact absurd rfl hne
  | cons n ns ih =>
    intro fuel acc enc hne hWF henc hfuel
    have hWFn := hWF n (List.mem_cons_self n ns)
    rw [serailise_nodes] at henc
    cases he : encodeNode n with
    | none => rw [he] at henc; simp at henc
    | some e =>
      rw [he] at henc
      cases hrest : serailise_nodes ns with
      | none => rw [hrest] at henc; simp at henc
      | some rest =>
        rw [hrest] at henc
        simp only [Option.some_bind, Option.map_some', Option.some.injEq] at henc
        subst henc
        obtain ⟨e', he', h9⟩ := encodeNode_some n hWFn
        rw [he] at he'
        have he9 : 9 ≤ e.length := by
          simp only [Option.some.injEq] at he'
          rw [he']
          exact h9
        obtain ⟨f, rfl⟩ : ∃ f, fuel = f + 1 := by
          refine ⟨fuel - 1, ?_⟩
          simp only [List.length_cons] at hfuel
          omega
        rw [dNodesLoop]
        have hne9 : ¬(((e ++ rest) ++ (endOfStreamMarker ++ pad)).isEmpty = true) := by
          rw [List.isEmpty_iff]
          intro hx
          have := congrArg List.length hx
          simp only [List.length_append, List.length_nil] at this
          omega
        rw [if_neg hne9, List.append_assoc,
          decodeToken_encodeNode n hWFn e he (rest ++ (endOfStreamMarker ++ pad)),
          Option.some_bind]
        have hmlen : endOfStreamMarker.length = 9 := rfl
        have hlen9 : ¬((rest ++ (endOfStreamMarker ++ pad)).length < 9) := by
          simp only [List.length_append, hmlen]
          omega
        rw [if_neg hlen9]
        cases ns with
        | nil =>
          have hrnil : rest = [] := by
            rw [serailise_nodes] at hrest
            simp only [Option.some.injEq] at hrest
            exact hrest.symm
          subst hrnil
          rw [List.nil_append, List.take_left' hmlen, if_pos rfl, List.reverse_cons]
        | cons m ns' =>
          have hWFm := hWF m (by simp)
          obtain ⟨em, hem, hm9⟩ := encodeNode_some m hWFm
          rw [serailise_nodes] at hrest
          rw [hem] at hrest
          cases hrest2 : serailise_nodes ns' with
          | none => rw [hrest2] at hrest; simp at hrest
          | some rest2 =>
            rw [hrest2] at hrest
            simp only [Option.some_bind, Option.map_some', Option.some.injEq] at hrest
            have hnotm : (rest ++ (endOfStreamMarker ++ pad)).take 9 ≠ endOfStreamMarker := by
              rw [← hrest, List.append_assoc]
              exact encodeNode_take9_ne_marker m hWFm em hem _
            rw [if_neg hnotm]
            have hrec := ih f (n :: acc) rest (by simp) (fun x hx => hWF x (by simp [hx]))
              (by rw [serailise_nodes, hem, hrest2]; simp [hrest]) (by
                simp only [List.length_cons] at hfuel ⊢
                omega)
            rw [hrec, reverse_cons_append]

/-! ## The full pipeline roundtrip -/

theorem covers_nil_length (B : List Nat) (p : Nat) (h : Covers B p []) : p = B.length := by
  cases h
  rfl

theorem append_end_marker_length (enc : List Bool) : 8 ∣ (append_end_marker enc).length := by
  simp only [append_end_marker]
  split
  · rename_i ht
    simp only [List.length_append, List.length_replicate]
    omega
  · rename_i ht
    simp only [List.length_append] at ht ⊢
    omega

theorem append_end_marker_decomp (enc : List Bool) :
    ∃ padN, append_end_marker enc =
      enc ++ (endOfStreamMarker ++ List.replicate padN false) := by
  simp only [append_end_marker]
  split
  · exact ⟨8 - (enc ++ endOfStreamMarker).length % 8, by rw [List.append_assoc]⟩
  · exact ⟨0, by simp⟩

theorem build_lz77_node_list_some (B : List Nat) (hne : B ≠ []) :
    ∃ ns, build_lz77_node_list B = some ns ∧ Covers B 0 ns := by
  rcases B with _ | ⟨b, t⟩
  · exact absurd rfl hne
  · obtain ⟨ns, heq, hcov⟩ := buildLoop_covers (b :: t) ((b :: t).length + 1) 0 [] 0 0
      (by simp) (by omega) (by omega) (by omega)
    refine ⟨ns, ?_, hcov⟩
    rw [build_lz77_node_list, heq]
    simp

theorem lz77_roundtrip (B : List Nat) (hne : B ≠ []) (hB : ∀ b ∈ B, b < 256) :
    (compress_bytes B).bind decompress_bytes = some B := by
  obtain ⟨ns, hbuild, hcov⟩ := build_lz77_node_list_some B hne
  have hWF := covers_WF B hB 0 ns hcov
  have hnsne : ns ≠ [] := by
    intro hx
    subst hx
    have := covers_nil_length B 0 hcov
    exact hne (List.length_eq_zero.mp this.symm)
  obtain ⟨enc, henc, hlenc⟩ := serailise_nodes_some ns hWF
  rw [compress_bytes, hbuild, Option.some_bind, henc, Option.map_some', Option.some_bind]
  rw [decompress_bytes, deserialise_nodes, deserialise_nodes_flagged]
  have hdiv := append_end_marker_length enc
  have hbits : bytesToBits (bitsToBytes (append_end_marker enc)) = append_end_marker enc :=
    bytesToBits_bitsToBytes _ hdiv
  have hblen : 8 * (bitsToBytes (append_end_marker enc)).length =
      (append_end_marker enc).length := by
    have := bytesToBits_length (bitsToBytes (append_end_marker enc))
    rw [hbits] at this
    omega
  obtain ⟨padN, hdec⟩ := append_end_marker_decomp enc
  have hfuel : ns.length ≤ 8 * (bitsToBytes (append_end_marker enc)).length + 1 := by
    have hω : enc.length ≤ (append_end_marker enc).length := by
      rw [hdec, List.length_append]
      omega
    omega
  rw [hbits]
  set fuel := 8 * (bitsToBytes (append_end_marker enc)).length + 1 with hfd
  rw [hdec]
  rw [dNodesLoop_decodes (List.replicate padN false) ns fuel [] enc hnsne hWF henc hfuel]
  simp only [List.reverse_nil, List.nil_append, Option.map_some', Option.some_bind]
  exact decompress_nodes_covers B ns hcov

/-! ## Decoder loop facts used by the marker / error-path claims -/

theorem dNodesLoop_acc_prefix (fuel : Nat) :
    ∀ bits acc res, dNodesLoop fuel bits acc = some res →
      ∃ tail, res.1 = acc.reverse ++ tail := by
  induction fuel with
  | zero => intro bits acc res h; simp [dNodesLoop] at h
  | succ fuel ih =>
    intro bits acc res h
    rw [dNodesLoop] at h
    split at h
    · simp only [Option.some.injEq] at h
      exact ⟨[], by rw [← h]; simp⟩
    · cases hd : decodeToken bits with
      | none => rw [hd] at h; simp at h
      | some nodeRest =>
        rw [hd, Option.some_bind] at h
        split at h
        · simp at h
        · split at h
          · simp only [Option.some.injEq] at h
            refine ⟨[nodeRest.1], ?_⟩
            rw [← h]
            simp
          · obtain ⟨tail, htail⟩ := ih nodeRest.2 (nodeRest.1 :: acc) res h
            refine ⟨nodeRest.1 :: tail, ?_⟩
            rw [htail, reverse_cons_append]

theorem dNodesLoop_none_or_marker (fuel : Nat) :
    ∀ bits acc, bits ≠ [] →
      dNodesLoop fuel bits acc = none ∨
        ∃ ns, dNodesLoop fuel bits acc = some (ns, true) := by
  induction fuel with
  | zero => intro bits acc h; exact Or.inl rfl
  | succ fuel ih =>
    intro bits acc hne
    rw [dNodesLoop]
    rw [if_neg (by simpa [List.isEmpty_iff] using hne)]
    cases hd : decodeToken bits with
    | none => exact Or.inl rfl
    | some nodeRest =>
      rw [Option.some_bind]
      split
      · exact Or.inl rfl
      · split
        · exact Or.inr ⟨_, rfl⟩
        · rename_i h9 _
          exact ih nodeRest.2 (nodeRest.1 :: acc) (by
            intro hx
            rw [hx] at h9
            simp at h9)

/-! ## Positions of reference tokens in a covered token list -/

/-- How many input bytes one token accounts for. -/
def nodeSpan : NodeType → Nat
  | NodeType.byteLiteral _ => 1
  | NodeType.reference _ length => length
  | NodeType.endOfStream => 0

/-- Bytes accounted for by a token list: the number of bytes consumed by the
tokenizer up to a given point of its output. -/
def spanSum (ns : List NodeType) : Nat := (ns.map nodeSpan).sum

theorem spanSum_cons (n : NodeType) (ns : List NodeType) :
    spanSum (n :: ns) = nodeSpan n + spanSum ns := by
  simp [spanSum]

theorem covers_get_ref (B : List Nat) (p : Nat) (ns : List NodeType) (h : Covers B p ns) :
    ∀ i (hi : i < ns.length) o l, ns.get ⟨i, hi⟩ = NodeType.reference o l →
      1 ≤ o ∧ o ≤ 2047 ∧ 2 ≤ l ∧ o ≤ p + spanSum (ns.take i) := by
  induction h with
  | nil => intro i hi; simp at hi
  | lit p ns hp h ih =>
    intro i hi o l hget
    cases i with
    | zero => simp at hget
    | succ i =>
      rw [List.get_cons_succ] at hget
      have := ih i (by simpa using hi) o l hget
      rw [List.take_succ_cons, spanSum_cons]
      simp only [nodeSpan]
      omega
  | ref p o' l' ns ho1 ho2 hop hl2 hlo hpl hmatch h ih =>
    intro i hi o l hget
    cases i with
    | zero =>
      have hget' : NodeType.reference o' l' = NodeType.reference o l := hget
      simp only [NodeType.reference.injEq] at hget'
      obtain ⟨rfl, rfl⟩ := hget'
      have hS : SEARCH_WINDOW_SIZE = 2047 := rfl
      simp only [List.take_zero, spanSum, List.map_nil, List.sum_nil]
      omega
    | succ i =>
      rw [List.get_cons_succ] at hget
      have := ih i (by simpa using hi) o l hget
      rw [List.take_succ_cons, spanSum_cons]
      simp only [nodeSpan]
      omega

theorem covers_mem_ref (B : List Nat) (p : Nat) (ns : List NodeType) (h : Covers B p ns) :
    ∀ o l, NodeType.reference o l ∈ ns → 1 ≤ o ∧ o ≤ 2047 ∧ 2 ≤ l ∧ l ≤ o := by
  induction h with
  | nil => intro o l hm; simp at hm
  | lit p ns hp h ih =>
    intro o l hm
    rcases List.mem_cons.mp hm with hm | hm
    · simp at hm
    · exact ih o l hm
  | ref p o' l' ns ho1 ho2 hop hl2 hlo hpl hmatch h ih =>
    intro o l hm
    rcases List.mem_cons.mp hm with hm | hm
    · simp only [NodeType.reference.injEq] at hm
      obtain ⟨rfl, rfl⟩ := hm
      have hS : SEARCH_WINDOW_SIZE = 2047 := rfl
      exact ⟨ho1, by omega, hl2, hlo⟩
    · exact ih o l hm

theorem deserialise_marker_first (bs : List Nat)
    (hmark : (bytesToBits bs).take 9 = endOfStreamMarker) :
    deserialise_nodes bs = none ∨
      ∃ l ns, deserialise_nodes bs = some (NodeType.reference 0 l :: ns) := by
  have hdecomp : bytesToBits bs = endOfStreamMarker ++ (bytesToBits bs).drop 9 := by
    conv_lhs => rw [← List.take_append_drop 9 (bytesToBits bs)]
    rw [hmark]
  rw [deserialise_nodes, deserialise_nodes_flagged]
  generalize hr : (bytesToBits bs).drop 9 = r at hdecomp
  rw [hdecomp, dNodesLoop]
  have hne : ¬((endOfStreamMarker ++ r).isEmpty = true) := by
    simp [List.isEmpty_iff, endOfStreamMarker]
  rw [if_neg hne]
  have h7 : ([false, false, false, false, false, false, false] : List Bool).length = 7 := rfl
  have hdt : decodeToken (endOfStreamMarker ++ r) =
      (deserialise_length r).map (fun lengthBitsRead =>
        (NodeType.reference 0 lengthBitsRead.1, r.drop lengthBitsRead.2)) := by
    show decodeToken
      (true :: true :: ([false, false, false, false, false, false, false] ++ r)) = _
    rw [decodeToken_true_true,
      if_pos (by rw [List.length_append, h7]; omega),
      List.take_left' h7, List.drop_left' h7,
      show bitsToNat [false, false, false, false, false, false, false] = 0 from rfl]
  rw [hdt]
  cases hdl : deserialise_length r with
  | none =>
    rw [Option.map_none', Option.none_bind, Option.map_none']
    exact Or.inl rfl
  | some lb =>
    rw [Option.map_some', Option.some_bind]
    split
    · exact Or.inl rfl
    · split
      · right
        exact ⟨lb.1, [], rfl⟩
      · cases hrec : dNodesLoop (8 * bs.length) (r.drop lb.2) [NodeType.reference 0 lb.1] with
        | none => exact Or.inl rfl
        | some res =>
          obtain ⟨tail, htail⟩ := dNodesLoop_acc_prefix (8 * bs.length) (r.drop lb.2)
            [NodeType.reference 0 lb.1] res hrec
          right
          refine ⟨lb.1, tail, ?_⟩
          rw [Option.map_some', htail]
          rfl

/-! ## Replaying an overlapping self-reference -/

theorem decompress_ref1_behaviour (b L : Nat) (hL : 2 ≤ L) :
    decompress_nodes [NodeType.byteLiteral b, NodeType.reference 1 L] = none ∧
      decompress_nodes [NodeType.byteLiteral b, NodeType.reference 1 1] = some [b, b] := by
  have hpush0 : ByteBuffer.pushAll [] [b] SEARCH_WINDOW_SIZE = some [b] := by
    rw [ByteBuffer.pushAll, if_neg (by simp [SEARCH_WINDOW_SIZE])]
    rfl
  have hpush1 : ByteBuffer.pushAll [b] [b] SEARCH_WINDOW_SIZE = some [b, b] := by
    rw [ByteBuffer.pushAll, if_neg (by simp [SEARCH_WINDOW_SIZE])]
    rfl
  constructor
  · rw [decompress_nodes]
    simp only [decompLoop, hpush0]
    rw [if_pos (by simp), if_neg (by simp; omega)]
  · rw [decompress_nodes]
    simp only [decompLoop, hpush0]
    rw [if_pos (by simp), if_pos (by simp)]
    have hslice : listSlice [b] ([b].length - 1) ([b].length - 1 + 1) = [b] := by
      simp [listSlice]
    rw [hslice]
    simp only [hpush1, decompLoop]
    rfl

/-! ## Claim theorems -/

/-- C1: for every byte sequence `B` with `|B| ≥ 1` (bytes < 256), the full
pipeline — `build_lz77_node_list`, `serailise_nodes` plus
`append_end_marker`, byte packing, `deserialise_nodes`, `decompress_nodes` —
round-trips: decompressing the compressed stream writes exactly `B`. -/
theorem claim_C1 (B : List Nat) (h1 : 1 ≤ B.length) (h256 : ∀ b ∈ B, b < 256) :
    (compress_bytes B).bind decompress_bytes = some B := by
  apply lz77_roundtrip B ?_ h256
  intro hx
  subst hx
  simp at h1

theorem claim_C1_witness :
    (1 ≤ ([97, 98, 97, 98, 98] : List Nat).length ∧
      ∀ b ∈ ([97, 98, 97, 98, 98] : List Nat), b < 256) ∧
    (compress_bytes [97, 98, 97, 98, 98]).bind decompress_bytes =
      some [97, 98, 97, 98, 98] :=
  ⟨⟨by decide, by decide⟩, claim_C1 [97, 98, 97, 98, 98] (by decide) (by decide)⟩

/-- C2 (counterexample): on the 12-byte input "ababcbababaa" the tokenizer
does NOT emit the sequence the specification lists (`..., Ref(4,3), Lit 'a',
Ref(2,2), Lit 'a'`): at position 8 it finds the two-byte match "ab" and emits
`Reference(2,2)` instead of a literal. -/
theorem claim_C2_counterexample :
    build_lz77_node_list [97, 98, 97, 98, 99, 98, 97, 98, 97, 98, 97, 97] ≠
      some [NodeType.byteLiteral 97, NodeType.byteLiteral 98, NodeType.reference 2 2,
        NodeType.byteLiteral 99, NodeType.reference 4 3, NodeType.byteLiteral 97,
        NodeType.reference 2 2, NodeType.byteLiteral 97] := by decide

/-- C2 (amended): on the 12-byte input "ababcbababaa", `build_lz77_node_list`
emits exactly `[Lit 'a', Lit 'b', Ref(2,2), Lit 'c', Ref(4,3), Ref(2,2),
Lit 'a', Lit 'a']` — matching the unit test in compress.rs, not the
sequence in the specification. -/
theorem claim_C2 :
    build_lz77_node_list [97, 98, 97, 98, 99, 98, 97, 98, 97, 98, 97, 97] =
      some [NodeType.byteLiteral 97, NodeType.byteLiteral 98, NodeType.reference 2 2,
        NodeType.byteLiteral 99, NodeType.reference 4 3, NodeType.reference 2 2,
        NodeType.byteLiteral 97, NodeType.byteLiteral 97] := by decide

/-- C3 (counterexample): the stream `0xC0 0x00` starts with the 9-bit marker
`110000000`, yet `deserialise_nodes` does not return the empty token
sequence — it first decodes a bogus `Reference{offset 0}` token and then
panics peeking for the marker past the end of the 16-bit stream
(modelled by `none`). -/
theorem claim_C3_counterexample :
    deserialise_nodes [192, 0] ≠ some [] := by decide

/-- C3 (amended): the decoder tests for the marker only AFTER each decoded
token, so a byte stream whose first 9 bits are the end-of-stream marker is
never recognised as empty: `deserialise_nodes` either panics (`none`) or
returns a token list whose head is the impossible token
`Reference{offset 0}` obtained by misparsing the marker. -/
theorem claim_C3 (bs : List Nat)
    (hmark : (bytesToBits bs).take 9 = endOfStreamMarker) :
    deserialise_nodes bs = none ∨
      ∃ l ns, deserialise_nodes bs = some (NodeType.reference 0 l :: ns) :=
  deserialise_marker_first bs hmark

theorem claim_C3_witness :
    ((bytesToBits [192, 0]).take 9 = endOfStreamMarker) ∧
    (deserialise_nodes [192, 0] = none ∨
      ∃ l ns, deserialise_nodes [192, 0] = some (NodeType.reference 0 l :: ns)) :=
  ⟨by decide, claim_C3 [192, 0] (by decide)⟩

/-- C4 (counterexample): `deserialise_nodes` has no `MalformedStream` error
path at all — its Rust signature returns a bare `Vec<NodeType>`.  On the
stream `0x00 0x00` (one literal, then the bitstream is exhausted before any
marker) it panics on an out-of-range bit-slice in the marker peek, modelled
by `none`, instead of returning a `MalformedStream` error. -/
theorem claim_C4_counterexample :
    deserialise_nodes [0, 0] = none := by decide

/-- C4 (amended): on every nonempty byte stream, `deserialise_nodes` either
panics (`none` — an out-of-range bit slice or an unwrap failure on a length
overflowing `u16`) or returns a token list after recognising the
end-of-stream marker; exhausting the bitstream before the marker never
produces an error value, because the function has no error type. -/
theorem claim_C4 (bs : List Nat) (hne : bs ≠ []) :
    deserialise_nodes bs = none ∨
      ∃ ns, deserialise_nodes_flagged bs = some (ns, true) ∧
        deserialise_nodes bs = some ns := by
  have hbits : bytesToBits bs ≠ [] := by
    intro hx
    have hl := congrArg List.length hx
    rw [bytesToBits_length] at hl
    simp only [List.length_nil] at hl
    exact hne (List.length_eq_zero.mp (by omega))
  rcases dNodesLoop_none_or_marker (8 * bs.length + 1) (bytesToBits bs) [] hbits with h | ⟨ns, h⟩
  · left
    rw [deserialise_nodes, deserialise_nodes_flagged, h]
    rfl
  · right
    refine ⟨ns, ?_, ?_⟩
    · rw [deserialise_nodes_flagged]
      exact h
    · rw [deserialise_nodes, deserialise_nodes_flagged, h]
      rfl

theorem claim_C4_witness :
    (([0, 0] : List Nat) ≠ []) ∧
    (deserialise_nodes [0, 0] = none ∨
      ∃ ns, deserialise_nodes_flagged [0, 0] = some (ns, true) ∧
        deserialise_nodes [0, 0] = some ns) :=
  ⟨by decide, claim_C4 [0, 0] (by decide)⟩

/-- C5 (counterexample): replaying `Reference(offset 1, length 2)` against
the one-byte history written by a preceding literal does not succeed with
two copies of that byte: the replayer copies one contiguous slice
`[len-1 .. len-1+2)` from the history buffer, which is out of bounds, so
`decompress_nodes` panics (modelled by `none`). -/
theorem claim_C5_counterexample :
    decompress_nodes [NodeType.byteLiteral 97, NodeType.reference 1 2] ≠
      some [97, 97, 97] := by decide

/-- C5 (amended): the replayer performs a single contiguous slice copy, not
a byte-by-byte interleaved append, so `Reference(1, L)` against a one-byte
history panics for every `L ≥ 2`; only the non-overlapping `L = 1` succeeds,
writing one copy of the most recent byte. -/
theorem claim_C5 (b L : Nat) (hL : 2 ≤ L) :
    decompress_nodes [NodeType.byteLiteral b, NodeType.reference 1 L] = none ∧
      decompress_nodes [NodeType.byteLiteral b, NodeType.reference 1 1] = some [b, b] :=
  decompress_ref1_behaviour b L hL

theorem claim_C5_witness :
    (2 ≤ 2) ∧
    (decompress_nodes [NodeType.byteLiteral 97, NodeType.reference 1 2] = none ∧
      decompress_nodes [NodeType.byteLiteral 97, NodeType.reference 1 1] =
        some [97, 97]) :=
  ⟨by decide, claim_C5 97 2 (by decide)⟩

/-- C6: every `Reference{offset, length}` emitted by `build_lz77_node_list`
satisfies `length ≤ offset`: a candidate match is only extended inside the
search slice, never past the cursor, so the tokenizer never produces an
overlapping copy and the replayer's contiguous slice copy stays in
bounds. -/
theorem claim_C6 (B : List Nat) (ns : List NodeType)
    (h : build_lz77_node_list B = some ns) (o l : Nat)
    (hmem : NodeType.reference o l ∈ ns) : l ≤ o := by
  rcases B with _ | ⟨b, t⟩
  · rw [show build_lz77_node_list [] = none from rfl] at h
    simp at h
  · obtain ⟨ns', hb, hcov⟩ := build_lz77_node_list_some (b :: t) (by simp)
    rw [hb, Option.some.injEq] at h
    subst h
    exact (covers_mem_ref (b :: t) 0 ns' hcov o l hmem).2.2.2

theorem claim_C6_witness :
    (build_lz77_node_list [97, 98, 97, 98] =
      some [NodeType.byteLiteral 97, NodeType.byteLiteral 98, NodeType.reference 2 2] ∧
      NodeType.reference 2 2 ∈
        [NodeType.byteLiteral 97, NodeType.byteLiteral 98, NodeType.reference 2 2]) ∧
    (2 : Nat) ≤ 2 :=
  ⟨⟨by decide, by decide⟩,
    claim_C6 [97, 98, 97, 98]
      [NodeType.byteLiteral 97, NodeType.byteLiteral 98, NodeType.reference 2 2]
      (by decide) 2 2 (by decide)⟩

/-- C7: every `Reference` token emitted by `build_lz77_node_list` satisfies
the token invariant: `1 ≤ offset ≤ 2047`, `length ≥ 2` (a one-byte match is
emitted as a literal, so `Reference(_, 1)` never occurs), and the offset is
at most the number of input bytes consumed by the preceding tokens. -/
theorem claim_C7 (B : List Nat) (ns : List NodeType)
    (h : build_lz77_node_list B = some ns) (i : Nat) (hi : i < ns.length) (o l : Nat)
    (hget : ns.get ⟨i, hi⟩ = NodeType.reference o l) :
    1 ≤ o ∧ o ≤ 2047 ∧ 2 ≤ l ∧ o ≤ spanSum (ns.take i) := by
  rcases B with _ | ⟨b, t⟩
  · rw [show build_lz77_node_list [] = none from rfl] at h
    simp at h
  · obtain ⟨ns', hb, hcov⟩ := build_lz77_node_list_some (b :: t) (by simp)
    rw [hb, Option.some.injEq] at h
    subst h
    have := covers_get_ref (b :: t) 0 ns' hcov i hi o l hget
    simpa using this

theorem claim_C7_witness :
    (build_lz77_node_list [97, 98, 97, 98] =
        some [NodeType.byteLiteral 97, NodeType.byteLiteral 98, NodeType.reference 2 2] ∧
      (2 : Nat) < 3 ∧
      ([NodeType.byteLiteral 97, NodeType.byteLiteral 98,
        NodeType.reference 2 2] : List NodeType).get ⟨2, by decide⟩ =
        NodeType.reference 2 2) ∧
    (1 ≤ 2 ∧ 2 ≤ 2047 ∧ 2 ≤ 2 ∧
      2 ≤ spanSum (([NodeType.byteLiteral 97, NodeType.byteLiteral 98,
        NodeType.reference 2 2] : List NodeType).take 2)) :=
  ⟨⟨by decide, by decide, by decide⟩,
    claim_C7 [97, 98, 97, 98]
      [NodeType.byteLiteral 97, NodeType.byteLiteral 98, NodeType.reference 2 2]
      (by decide) 2 (by decide) 2 2 (by decide)⟩

/-- C8: for every `length` in `2 .. 2047` the length codec is in harmony:
decoding the encoding returns the length together with the bit count of the
encoding, and for `length ≥ 8` the encoding is `k = (length+7)/15` blocks of
`1111` followed by the 4-bit value `length - (15k - 7)`, which is never
`1111`. -/
theorem claim_C8 (l : Nat) (h2 : 2 ≤ l) (h3 : l ≤ 2047) :
    ∃ e, serialise_length l = some e ∧ deserialise_length e = some (l, e.length) ∧
      (8 ≤ l →
        e = (List.replicate ((l + 7) / 15) [true, true, true, true]).flatten ++
            natBits 4 (l - ((l + 7) / 15 * 15 - 7)) ∧
          natBits 4 (l - ((l + 7) / 15 * 15 - 7)) ≠ [true, true, true, true]) := by
  obtain ⟨e, hsl, hd⟩ := deserialise_length_encoding l h2 h3 []
  rw [List.append_nil] at hd
  refine ⟨e, hsl, hd, ?_⟩
  intro h8
  obtain ⟨m, rfl⟩ : ∃ m, l = m + 8 := ⟨l - 8, by omega⟩
  have hdm := Nat.div_add_mod (m + 8 + 7) 15
  have hmod : (m + 8 + 7) % 15 < 15 := Nat.mod_lt _ (by omega)
  have hadj : (m + 8) - ((m + 8 + 7) / 15 * 15 - 7) = (m + 8 + 7) % 15 := by omega
  rw [serialise_length_general, hadj, if_neg (by omega)] at hsl
  simp only [Option.some.injEq] at hsl
  constructor
  · rw [← hsl, hadj]
  · rw [hadj]
    intro hx
    have hb := bitsToNat_natBits_eq 4 ((m + 8 + 7) % 15) (by omega)
    rw [hx] at hb
    rw [show bitsToNat [true, true, true, true] = 15 from rfl] at hb
    omega

theorem claim_C8_witness :
    ((2 : Nat) ≤ 23 ∧ (23 : Nat) ≤ 2047) ∧
    (∃ e, serialise_length 23 = some e ∧ deserialise_length e = some (23, e.length) ∧
      (8 ≤ 23 →
        e = (List.replicate ((23 + 7) / 15) [true, true, true, true]).flatten ++
            natBits 4 (23 - ((23 + 7) / 15 * 15 - 7)) ∧
          natBits 4 (23 - ((23 + 7) / 15 * 15 - 7)) ≠ [true, true, true, true])) :=
  ⟨⟨by decide, by decide⟩, claim_C8 23 (by decide) (by decide)⟩

/-- C9 (counterexample): `build_lz77_node_list` applied to the empty byte
slice does not return normally with no tokens: its first action is
`to_compress[byte_ptr]` with `byte_ptr = 0`, which on an empty slice is an
out-of-bounds index panic (modelled by `none`). -/
theorem claim_C9_counterexample :
    build_lz77_node_list [] ≠ some [] := by decide

/-- C9 (amended): on empty input `build_lz77_node_list` panics — the loop
body indexes the input before any emptiness check — so the tokenizer is
total only on non-empty input. -/
theorem claim_C9 : build_lz77_node_list [] = none := by decide

/-- C10 (code bug): `ByteWindow::advance_to_pointer` does not return
normally for every pointer.  On a fresh window over the single byte `[0x62]`
with `max_window_size = 2`, `advance_to_pointer(4)` (so `p - max = 2`
exceeds `N = 1`) panics computing the evicted slice `bytes[0..2]` — the
function's own documentation promises that advancing past the end of the
slice returns empty slices.  The mathematical window `bytes[max(0, p-max) ..
min(p, N)]` claimed by the spec is empty there. -/
theorem claim_C10 :
    ByteWindow.advanceToPointer (ByteWindow.mk [98] 2 0) 4 = none ∧
      listSlice [98] (4 - 2) (min 1 4) = [] := by decide
